import Mathlib

/-!
Verification of the JSON utility SDK (parser, structural differ, share codec).

The development shallowly embeds the TypeScript sources:
the parser entry point `safeJsonParse` and `offsetToLineColumn`
(src/json/parser.ts), the two coexisting versions of the structural
differ (src/json/differ.ts, embedded in namespace `Differ`, and the
RFC-6901 variant of the same module, embedded in namespace `DifferB`),
and the share codec (`decompress`, `fitsInPayload` from
src/share/codec.ts, `decode`, `isShareableSize` from the encoder
module).  External collaborators (the jsonc tokenizer, the lz-string
codec, native JSON.parse) are abstracted as oracle parameters; the
external microdiff library is modelled from the specification of the
structural diff algorithm.
-/

/-! ## The JSON value tree

A tagged union mirroring the parsed representation used by the sources:
null, booleans, numbers, strings, ordered arrays, and objects as
ordered key/value sequences with insertion order preserved.  The value
type is given as a mutual inductive (values / value lists / field
lists) so that all traversals below are structurally recursive and
kernel-computable.  JSON numbers are IEEE doubles in JavaScript; every
number appearing in the claims is a small integer, represented exactly,
so numbers are embedded as integers. -/

mutual

inductive Value where
  | null
  | bool (b : Bool)
  | num (n : Int)
  | str (s : String)
  | arr (xs : VList)
  | obj (fs : FList)
  deriving DecidableEq

/-- An ordered sequence of JSON values (array elements). -/
inductive VList where
  | nil
  | cons (v : Value) (tail : VList)
  deriving DecidableEq

/-- An ordered sequence of object fields (key/value pairs). -/
inductive FList where
  | nil
  | cons (key : String) (val : Value) (tail : FList)
  deriving DecidableEq

end

/-- The element list of a `VList`. -/
def VList.toList : VList → List Value
  | .nil => []
  | .cons v rest => v :: rest.toList

/-- The entry list of an `FList`. -/
def FList.entries : FList → List (String × Value)
  | .nil => []
  | .cons k v rest => (k, v) :: rest.entries

/-- The keys of an `FList`, in insertion order. -/
def FList.keys : FList → List String
  | .nil => []
  | .cons k _ rest => k :: rest.keys

/-- Number of elements of a `VList`. -/
def VList.length : VList → Nat
  | .nil => 0
  | .cons _ rest => rest.length + 1

/-- Drop the first `n` elements of a `VList`. -/
def VList.drop : Nat → VList → VList
  | 0, xs => xs
  | _+1, .nil => .nil
  | n+1, .cons _ rest => VList.drop n rest

mutual

/-- A size measure on values, used for strong induction. -/
def Value.size : Value → Nat
  | .arr xs => xs.size + 1
  | .obj fs => fs.size + 1
  | _ => 1

def VList.size : VList → Nat
  | .nil => 0
  | .cons v rest => v.size + rest.size + 1

def FList.size : FList → Nat
  | .nil => 0
  | .cons _ v rest => v.size + rest.size + 1

end

/-- First-match lookup of a key in an object field list, mirroring
JavaScript property access `obj[key]` / `key in obj` on parsed objects
(which cannot hold duplicate keys). -/
def lookupV (k : String) : FList → Option Value
  | .nil => none
  | .cons k' v rest => if k' = k then some v else lookupV k rest

/-- A composite value is an Array or Object; in the sources the test is
`data !== null && typeof data === "object"`. -/
def isComposite : Value → Bool
  | .arr _ => true
  | .obj _ => true
  | _ => false

/-- Both values are composites of the same kind (both arrays or both
objects): the condition under which the structural diff recurses. -/
def sameKindComposite : Value → Value → Bool
  | .arr _, .arr _ => true
  | .obj _, .obj _ => true
  | _, _ => false

/-! ## Well-formed values

Parsed JSON objects have unique keys (JavaScript objects cannot hold
two properties of the same name; `JSON.parse` keeps the last duplicate
only).  `WF` states this recursively; every tree produced by the parser
satisfies it. -/

/-- `true` when the field list already binds key `k`. -/
def FList.hasKey (fs : FList) (k : String) : Bool :=
  (lookupV k fs).isSome

/-- Keys of a field list are pairwise distinct. -/
def keysNodup : FList → Bool
  | .nil => true
  | .cons k _ rest => !(rest.hasKey k) && keysNodup rest

mutual

/-- Well-formedness of a value: every object node has distinct keys. -/
def WF : Value → Bool
  | .arr xs => WFv xs
  | .obj fs => keysNodup fs && WFf fs
  | _ => true

def WFv : VList → Bool
  | .nil => true
  | .cons v rest => WF v && WFv rest

def WFf : FList → Bool
  | .nil => true
  | .cons _ v rest => WF v && WFf rest

end

/-! ## JavaScript trim semantics

The sources test emptiness with `!s.trim()`.  `String.prototype.trim`
strips the ECMAScript WhiteSpace and LineTerminator characters, so the
test is equivalent to: every character of `s` is in that set. -/

/-- The ECMAScript WhiteSpace and LineTerminator characters. -/
def jsWhitespaceChars : List Char :=
  ['\t', '\n', '\x0B', '\x0C', '\r', ' ', '\u00A0', '\u1680',
   '\u2000', '\u2001', '\u2002', '\u2003', '\u2004', '\u2005',
   '\u2006', '\u2007', '\u2008', '\u2009', '\u200A',
   '\u2028', '\u2029', '\u202F', '\u205F', '\u3000', '\uFEFF']

def isJsWhitespace (c : Char) : Bool :=
  jsWhitespaceChars.contains c

/-- `jsBlank s` is `true` exactly when the JavaScript test `!s.trim()`
is: `s` is empty or consists of whitespace only. -/
def jsBlank (s : String) : Bool :=
  s.toList.all isJsWhitespace

/-! ## The structural diff (microdiff), modelled from the spec

Modelled from the spec: the differ delegates its structural recursion
to the external `microdiff` npm package, whose code is not part of this
repository.  The model follows the specification of the structural
differ: objects are compared key by key (keys only in the left value
yield `REMOVE`, keys only in the right yield `CREATE`, shared keys
recurse when both values are composites of the same kind and yield a
single `CHANGE` when the values differ otherwise); arrays are compared
positionally by the same rules; entries are emitted in the traversal
order of the left value followed by the additions in the traversal
order of the right value; every path is built by prepending the segment
at each recursion step. -/

/-- A path segment as microdiff produces it: an object key or an array
index. -/
inductive Seg where
  | key (s : String)
  | idx (n : Nat)
  deriving DecidableEq

/-- The microdiff difference kinds. -/
inductive DType where
  | create
  | remove
  | change
  deriving DecidableEq

/-- A microdiff `Difference` record: `CREATE` carries `value`, `REMOVE`
carries `oldValue`, `CHANGE` carries both. -/
structure MDiff where
  type : DType
  path : List Seg
  oldValue : Option Value
  value : Option Value
  deriving DecidableEq

/-- Prepend a path segment to an entry produced by a recursive call. -/
def prependSeg (s : Seg) (e : MDiff) : MDiff :=
  { e with path := s :: e.path }

/-- Additions: entries of `rf` whose key is absent from `lf`, in the
traversal order of `rf`. -/
def objAdds (lf : FList) : FList → List MDiff
  | .nil => []
  | .cons k w rest =>
    (if (lookupV k lf).isNone then [(⟨.create, [.key k], none, some w⟩ : MDiff)] else [])
      ++ objAdds lf rest

/-- Additions for arrays: the trailing elements of the right array,
indexed from `i`. -/
def arrAdds (i : Nat) : VList → List MDiff
  | .nil => []
  | .cons w rest => ⟨.create, [.idx i], none, some w⟩ :: arrAdds (i+1) rest

mutual

/-- The modelled structural diff of two values.  Only invoked by the
differ on two composites; on any other pair it returns no entries. -/
def microdiff (l r : Value) : List MDiff :=
  match l, r with
  | .obj lf, .obj rf => objPass lf rf ++ objAdds lf rf
  | .arr la, .arr ra => arrPass 0 la ra ++ arrAdds la.length (ra.drop la.length)
  | _, _ => []

/-- The pass over the left object: removals, recursions and changes in
the traversal order of `lf`. -/
def objPass (lf rf : FList) : List MDiff :=
  match lf with
  | .nil => []
  | .cons k v rest =>
    (match lookupV k rf with
     | none => [(⟨.remove, [.key k], some v, none⟩ : MDiff)]
     | some w =>
       if sameKindComposite v w then (microdiff v w).map (prependSeg (.key k))
       else if v = w then []
       else [(⟨.change, [.key k], some v, some w⟩ : MDiff)]) ++ objPass rest rf

/-- The positional pass over two arrays, starting at index `i`. -/
def arrPass (i : Nat) (la ra : VList) : List MDiff :=
  match la, ra with
  | .nil, _ => []
  | .cons v lrest, .nil => ⟨.remove, [.idx i], some v, none⟩ :: arrPass (i+1) lrest .nil
  | .cons v lrest, .cons w rrest =>
    (if sameKindComposite v w then (microdiff v w).map (prependSeg (.idx i))
     else if v = w then []
     else [(⟨.change, [.idx i], some v, some w⟩ : MDiff)]) ++ arrPass (i+1) lrest rrest

end

/-- The contribution of one shared key or index: recurse when both
values are composites of the same kind, nothing when the values are
equal, a single change entry otherwise. -/
def sharedStep (s : Seg) (v w : Value) : List MDiff :=
  if sameKindComposite v w then (microdiff v w).map (prependSeg s)
  else if v = w then []
  else [(⟨.change, [s], some v, some w⟩ : MDiff)]

theorem objPass_cons (k : String) (v : Value) (rest rf : FList) :
    objPass (.cons k v rest) rf =
      (match lookupV k rf with
       | none => [(⟨.remove, [.key k], some v, none⟩ : MDiff)]
       | some w => sharedStep (.key k) v w) ++ objPass rest rf := rfl

theorem arrPass_cons_cons (i : Nat) (v w : Value) (lrest rrest : VList) :
    arrPass i (.cons v lrest) (.cons w rrest) =
      sharedStep (.idx i) v w ++ arrPass (i+1) lrest rrest := rfl

/-! ## Diff entries and results (src/json/types.ts) -/

/-- The public entry kinds of the differ. -/
inductive EntryType where
  | add
  | remove
  | update
  deriving DecidableEq

/-- A single difference between two JSON documents: `add` carries only
`newValue`, `remove` only `oldValue`, `update` both. -/
structure DiffEntry where
  type : EntryType
  path : String
  oldValue : Option Value
  newValue : Option Value
  deriving DecidableEq

/-- Result of comparing two JSON documents.  The TypeScript record
carries a `success` flag, a `differences` list (empty on failure) and
an optional `error` string; the two situations are embedded as a sum. -/
inductive DiffResult where
  | success (differences : List DiffEntry)
  | failure (error : String)
  deriving DecidableEq

/-- The `success` flag of a diff result. -/
def DiffResult.isSuccess : DiffResult → Bool
  | .success _ => true
  | .failure _ => false

/-- The `differences` list of a diff result (empty on failure, as in
the record returned by the sources). -/
def DiffResult.differences : DiffResult → List DiffEntry
  | .success ds => ds
  | .failure _ => []

namespace Differ

/-!
The differ of src/json/differ.ts.  Its `formatPath` renders a path
array in dotted/bracket notation: an empty path is `/`; a numeric
segment is `[n]`; a string segment is printed bare at index 0 and with
a leading dot afterwards; the rendered segments are joined with no
separator and no escaping is applied.
-/

/-- One rendered segment of `formatPath`: `first` is true for index 0
of the path array. -/
def segString (first : Bool) : Seg → String
  | .idx n => "[" ++ toString n ++ "]"
  | .key k => if first then k else "." ++ k

/-- `formatPath` of src/json/differ.ts. -/
def formatPath : List Seg → String
  | [] => "/"
  | s :: rest => segString true s ++ String.join (rest.map (segString false))

/-- `convertDiff` of src/json/differ.ts: translate a microdiff record
into a public diff entry. -/
def convertDiff (d : MDiff) : DiffEntry :=
  match d.type with
  | .create => ⟨.add, formatPath d.path, none, d.value⟩
  | .remove => ⟨.remove, formatPath d.path, d.oldValue, none⟩
  | .change => ⟨.update, formatPath d.path, d.oldValue, d.value⟩

/-- Modelled from the spec: the application of the external `microdiff`
package by `compareJson`.  The differ only reaches this call when at
least one input is composite; the comment in src/json/differ.ts states
that microdiff does not handle root-level primitive comparisons, and
its `try`/`catch` converts the resulting exception into an error
result, so applying it to a primitive and a composite is modelled as an
error.  On two composites the modelled structural diff is returned. -/
def microdiffApp (l r : Value) : Except String (List MDiff) :=
  if isComposite l && isComposite r then .ok (microdiff l r)
  else .error "microdiff cannot compare a root-level primitive with a composite"

/-- The value-level core of `compareJson` of src/json/differ.ts: the
logic applied after both inputs parsed successfully.  When both values
are primitives (not Array/Object) they are compared directly; otherwise
the pair is handed to microdiff. -/
def compareJsonV (leftData rightData : Value) : DiffResult :=
  if !(isComposite leftData) && !(isComposite rightData) then
    if leftData ≠ rightData then
      .success [⟨.update, "/", some leftData, some rightData⟩]
    else .success []
  else
    match microdiffApp leftData rightData with
    | .ok diffs => .success (diffs.map convertDiff)
    | .error e => .failure ("Diff error: " ++ e)

end Differ

namespace DifferB

/-!
The RFC-6901 variant of the differ module (the unnamed source file
part_001).  Its `formatPath` renders the path array as a JSON Pointer:
an empty path is `/`; otherwise every segment is stringified, `~` is
escaped as `~0` and `/` as `~1`, and the escaped segments are joined
with `/` after a leading `/`.
-/

/-- `String(segment)` for a path segment. -/
def segToString : Seg → String
  | .key k => k
  | .idx n => toString n

/-- RFC 6901 escaping: `~` becomes `~0`, `/` becomes `~1`.  The source
applies `replace(~ -> ~0)` then `replace(/ -> ~1)`; since the first
replacement introduces no `/` and the second touches no `~`, the
composition acts independently on each character. -/
def escapeSegment (s : String) : String :=
  String.mk (s.toList.flatMap fun c =>
    if c = '~' then ['~', '0'] else if c = '/' then ['~', '1'] else [c])

/-- `formatPath` of the RFC-6901 differ variant. -/
def formatPath : List Seg → String
  | [] => "/"
  | s :: rest =>
    "/" ++ String.intercalate "/" (((s :: rest).map segToString).map escapeSegment)

/-- `convertDiff` of the RFC-6901 differ variant. -/
def convertDiff (d : MDiff) : DiffEntry :=
  match d.type with
  | .create => ⟨.add, formatPath d.path, none, d.value⟩
  | .remove => ⟨.remove, formatPath d.path, d.oldValue, none⟩
  | .change => ⟨.update, formatPath d.path, d.oldValue, d.value⟩

/-- The value-level core of `compareJson` of the RFC-6901 differ
variant: when either value is a primitive the two values are compared
for deep equality (the source compares `JSON.stringify` images, which
on parsed values — at least one of them primitive — coincides with
structural equality: serialization of the integers, strings, booleans
and null of the value model is injective, and a composite never
serializes like a primitive); otherwise the pair is handed to
microdiff. -/
def compareJsonV (leftData rightData : Value) : DiffResult :=
  if !(isComposite leftData) || !(isComposite rightData) then
    if leftData = rightData then .success []
    else .success [⟨.update, "/", some leftData, some rightData⟩]
  else
    .success ((microdiff leftData rightData).map convertDiff)

end DifferB

/-! ## The parser entry point (src/json/parser.ts)

The tokenizer itself is the external `jsonc-parser` package, treated as
a collaborator: it is abstracted as an oracle returning the parsed data
together with the list of parse errors (code and offset), exactly the
interface `parse(input, errors, options)` exposes.  Everything the
claims are about — the blank-input check, the error table and the
offset-to-position conversion — is code of src/json/parser.ts and is
embedded below. -/

/-- A `ParseError` of the jsonc tokenizer: a numeric error code and the
offset of the offending character. -/
structure JsoncError where
  error : Nat
  offset : Nat
  deriving DecidableEq

/-- The `parseErrorMessages` table of src/json/parser.ts, keyed by the
numeric `ParseErrorCode` values of the jsonc tokenizer. -/
def parseErrorMessages : List (Nat × String) :=
  [(1, "Invalid symbol"),
   (2, "Invalid number format"),
   (3, "Property name expected"),
   (4, "Value expected"),
   (5, "Colon expected"),
   (6, "Comma expected"),
   (7, "Closing brace expected"),
   (8, "Closing bracket expected"),
   (9, "End of file expected"),
   (10, "Invalid comment token"),
   (11, "Unexpected end of comment"),
   (12, "Unexpected end of string"),
   (13, "Unexpected end of number"),
   (14, "Invalid unicode escape sequence"),
   (15, "Invalid escape character"),
   (16, "Invalid character")]

/-- Result of `safeJsonParse`: either the parsed data or an error record
with message and 1-based line and column. -/
inductive ParseResult where
  | success (data : Value)
  | failure (message : String) (line : Nat) (column : Nat)
  deriving DecidableEq

/-- `text.split("\n")` on a character list: the maximal chunks between
newline characters.  `split` of an empty text yields one empty chunk,
and every newline opens a fresh chunk. -/
def splitNl : List Char → List (List Char)
  | [] => [[]]
  | c :: rest =>
    if c = '\n' then [] :: splitNl rest
    else
      match splitNl rest with
      | [] => [[c]]
      | p :: ps => (c :: p) :: ps

/-- `offsetToLineColumn` of src/json/parser.ts: split the prefix of the
input before `offset` at newlines; the line is the number of chunks and
the column is the length of the last chunk plus one.  The JavaScript
original indexes the text in UTF-16 units; the embedding counts
codepoints, the unit the design leaves open. -/
def offsetToLineColumn (input : String) (offset : Nat) : Nat × Nat :=
  let lines := splitNl (input.toList.take offset)
  (lines.length, (lines.getLastD []).length + 1)

/-- `safeJsonParse` of src/json/parser.ts, with the jsonc tokenizer
abstracted as the oracle `p`.  Blank input is answered directly with
the distinguished empty-input error at line 1, column 1; otherwise the
tokenizer runs and its first error, if any, is translated through the
message table and `offsetToLineColumn`. -/
def safeJsonParse (p : String → Value × List JsoncError) (input : String) : ParseResult :=
  if jsBlank input then .failure "Input is empty" 1 1
  else
    match p input with
    | (data, []) => .success data
    | (_, e :: _) =>
      let lc := offsetToLineColumn input e.offset
      .failure ((parseErrorMessages.lookup e.error).getD "Unknown parse error") lc.1 lc.2

/-- The string-level `compareJson` of src/json/differ.ts: parse both
inputs with `safeJsonParse`, report a parse failure of either side as a
diff failure, and otherwise apply the value-level comparison. -/
def Differ.compareJson (p : String → Value × List JsoncError)
    (left right : String) : DiffResult :=
  match safeJsonParse p left with
  | .failure msg _ _ => .failure ("Left JSON is invalid: " ++ msg)
  | .success leftData =>
    match safeJsonParse p right with
    | .failure msg _ _ => .failure ("Right JSON is invalid: " ++ msg)
    | .success rightData => Differ.compareJsonV leftData rightData

/-! ## The share codec (src/share/codec.ts and the encoder module)

The lz-string compression and the native `JSON.parse` are external
collaborators, abstracted as oracles: `lz` returns the decompressed
text or `none` (the library returns `null` on undecodable input, and
the sources also treat an empty result as a failure), and `pj` returns
the parsed value of the plaintext or `none` when it is not valid JSON. -/

/-- Maximum payload size before compression (50KB). -/
def MAX_PAYLOAD_SIZE : Nat := 50 * 1024

/-- Maximum decompressed size to prevent zip bomb attacks (100KB). -/
def MAX_DECOMPRESSED_SIZE : Nat := 100 * 1024

/-- Approximate overhead of the payload wrapper in bytes. -/
def PAYLOAD_WRAPPER_OVERHEAD : Nat := 30

/-- Result of `decompress`: the typed payload value or an error. -/
inductive DecompressResult where
  | success (data : Value)
  | failure (error : String)
  deriving DecidableEq

/-- The `success` flag of a decompress result. -/
def DecompressResult.isSuccess : DecompressResult → Bool
  | .success _ => true
  | .failure _ => false

/-- The `v` property of the parsed payload: present only when the
payload is an object with a `v` field (property access on any other
value yields `undefined`, embedded as `none`). -/
def vField : Value → Option Value
  | .obj fs => lookupV "v" fs
  | _ => none

/-- The `d` property of the parsed payload. -/
def dField : Value → Option Value
  | .obj fs => lookupV "d" fs
  | _ => none

mutual

/-- The JavaScript `String(x)` conversion of a parsed JSON value, as a
template literal interpolates it: `null` renders as `null`, booleans
and numbers as their decimal text, a string as itself, an object as
`[object Object]`, and an array as its elements joined with commas. -/
def jsToString : Value → String
  | .null => "null"
  | .bool true => "true"
  | .bool false => "false"
  | .num n => toString n
  | .str s => s
  | .arr xs => jsArrJoin xs
  | .obj _ => "[object Object]"

/-- `Array.prototype.toString`: the element strings joined with commas,
where a `null` element renders as the empty string (JSON arrays hold no
`undefined`), so `[1,2]` renders as `1,2` and `[]` as the empty
string. -/
def jsArrJoin : VList → String
  | .nil => ""
  | .cons .null .nil => ""
  | .cons v .nil => jsToString v
  | .cons .null (.cons v2 rest) => "," ++ jsArrJoin (.cons v2 rest)
  | .cons v (.cons v2 rest) => jsToString v ++ "," ++ jsArrJoin (.cons v2 rest)

end

/-- The text interpolated for `${data.v}` in the unsupported-version
message: `undefined` when the payload carries no `v` property, the
JavaScript string conversion of the field otherwise.  Only meaningful
when the property access does not throw, i.e. the payload is not
`null`. -/
def versionDisplay (data : Value) : String :=
  match vField data with
  | none => "undefined"
  | some v => jsToString v

/-- `decompress` of src/share/codec.ts: reject blank input, decompress,
reject an empty or oversized plaintext, parse it as JSON, and reject
any version tag other than `1`.  `JSON.parse` of the plaintext `null`
succeeds with `null`; the subsequent `data.v` property access then
throws inside the `try`, and the `catch` answers the same
invalid-payload failure — on every other parsed value the access
succeeds, yielding the field or `undefined`. -/
def decompress (lz : String → Option String) (pj : String → Option Value)
    (encoded : String) : DecompressResult :=
  if jsBlank encoded then .failure "Invalid share link"
  else
    match lz encoded with
    | none => .failure "Could not decode data"
    | some decompressed =>
      if decompressed = "" then .failure "Could not decode data"
      else if MAX_DECOMPRESSED_SIZE < decompressed.length then
        .failure "Decoded content too large"
      else
        match pj decompressed with
        | none => .failure "Invalid payload format"
        | some data =>
          if data = .null then .failure "Invalid payload format"
          else if vField data ≠ some (.num 1) then
            .failure ("Unsupported version: " ++ versionDisplay data)
          else .success data

/-- Result of `decode` of the encoder module: the `d` field of the
payload (possibly `undefined` when the payload lacks it) or an error. -/
inductive DecodeResult where
  | success (json : Option Value)
  | failure (error : String)
  deriving DecidableEq

/-- The `success` flag of a decode result. -/
def DecodeResult.isSuccess : DecodeResult → Bool
  | .success _ => true
  | .failure _ => false

/-- `decode` of the encoder module (the unnamed source file part_002):
the same pipeline as `decompress`, returning the `d` field of the
payload on success; the `payload.v` access on a `null` payload throws
and is caught as the invalid-payload failure, as in `decompress`. -/
def decode (lz : String → Option String) (pj : String → Option Value)
    (encoded : String) : DecodeResult :=
  if jsBlank encoded then .failure "Invalid share link"
  else
    match lz encoded with
    | none => .failure "Could not decode data"
    | some decompressed =>
      if decompressed = "" then .failure "Could not decode data"
      else if MAX_DECOMPRESSED_SIZE < decompressed.length then
        .failure "Decoded content too large"
      else
        match pj decompressed with
        | none => .failure "Invalid payload format"
        | some payload =>
          if payload = .null then .failure "Invalid payload format"
          else if vField payload ≠ some (.num 1) then
            .failure ("Unsupported version: " ++ versionDisplay payload)
          else .success (dField payload)

/-- `fitsInPayload` of src/share/codec.ts: blank content is never
shareable; otherwise the UTF-8 byte length of the content (the length
of `new TextEncoder().encode(content)`) plus the wrapper overhead must
not exceed the payload limit. -/
def fitsInPayload (content : String) : Bool :=
  if jsBlank content then false
  else content.utf8ByteSize + PAYLOAD_WRAPPER_OVERHEAD ≤ MAX_PAYLOAD_SIZE

/-- `isShareableSize` of the encoder module (the unnamed source file
part_002): identical to `fitsInPayload`, with the same local 30-byte
wrapper overhead constant. -/
def isShareableSize (json : String) : Bool :=
  if jsBlank json then false
  else json.utf8ByteSize + PAYLOAD_WRAPPER_OVERHEAD ≤ MAX_PAYLOAD_SIZE

/-! ## Claims about path rendering and the root-primitive rule -/

/-- C1 (counterexample): the differ of src/json/differ.ts does not
escape key segments.  Diffing the parsed objects with key `a~b`
(respectively `a/b`) emits the bare dotted-path segment `a~b`
(respectively `a/b`), not the RFC-6901 pointer `/a~0b` (respectively
`/a~1b`) the claim states. -/
theorem differ_path_not_escaped :
    Differ.compareJsonV (.obj (.cons "a~b" (.num 1) .nil))
        (.obj (.cons "a~b" (.num 2) .nil)) =
      .success [⟨.update, "a~b", some (.num 1), some (.num 2)⟩] ∧
    Differ.compareJsonV (.obj (.cons "a/b" (.num 1) .nil))
        (.obj (.cons "a/b" (.num 2) .nil)) =
      .success [⟨.update, "a/b", some (.num 1), some (.num 2)⟩] ∧
    (("a~b" : String) == "/a~0b") = false ∧
    (("a/b" : String) == "/a~1b") = false := by decide

/-- C1 (amended): the RFC-6901 escaping holds for the variant differ
module: its entries carry the pointer paths `/a~0b` and `/a~1b` for
keys containing `~` and `/`; the differ of src/json/differ.ts emits the
same entries with the unescaped bare segments `a~b` and `a/b`. -/
theorem differB_path_escaped :
    DifferB.compareJsonV (.obj (.cons "a~b" (.num 1) .nil))
        (.obj (.cons "a~b" (.num 2) .nil)) =
      .success [⟨.update, "/a~0b", some (.num 1), some (.num 2)⟩] ∧
    DifferB.compareJsonV (.obj (.cons "a/b" (.num 1) .nil))
        (.obj (.cons "a/b" (.num 2) .nil)) =
      .success [⟨.update, "/a~1b", some (.num 1), some (.num 2)⟩] := by decide

/-- C2 (code bug): the differ of src/json/differ.ts takes its direct
value-comparison branch only when BOTH inputs are primitive.  A mixed
pair — primitive `42` against composite `{"a": 1}` — is handed to
microdiff, which cannot handle root-level primitive comparisons (per
the comment in the source); the caught error surfaces as a failure
result instead of the single root `update` the claim requires.  The
variant differ module guards on EITHER side being primitive and
produces exactly the claimed single root update. -/
theorem differ_mixed_root_bug :
    Differ.compareJsonV (.num 42) (.obj (.cons "a" (.num 1) .nil)) =
      .failure "Diff error: microdiff cannot compare a root-level primitive with a composite" ∧
    (Differ.compareJsonV (.num 42) (.obj (.cons "a" (.num 1) .nil))).isSuccess = false ∧
    DifferB.compareJsonV (.num 42) (.obj (.cons "a" (.num 1) .nil)) =
      .success [⟨.update, "/",
        some (.num 42), some (.obj (.cons "a" (.num 1) .nil))⟩] := by decide

/-- C3 (code bug): `compareJson` of src/json/differ.ts does have a
failure mode of its own: on the syntactically valid inputs `42` and
`{"a":1}` both parses succeed, yet the result is a failure (the mixed
primitive/composite root pair reaches microdiff).  The value-level
comparison of the variant differ module, by contrast, is infallible. -/
theorem compareJson_error_channel (p : String → Value × List JsoncError)
    (hl : p "42" = (.num 42, []))
    (hr : p "\x7b\"a\":1\x7d" = (.obj (.cons "a" (.num 1) .nil), [])) :
    (Differ.compareJson p "42" "\x7b\"a\":1\x7d").isSuccess = false ∧
    ∀ l r : Value, (DifferB.compareJsonV l r).isSuccess = true := by
  constructor
  · have hb1 : jsBlank "42" = false := by decide
    have hb2 : jsBlank "\x7b\"a\":1\x7d" = false := by decide
    simp [Differ.compareJson, safeJsonParse, hb1, hb2, hl, hr, Differ.compareJsonV,
      Differ.microdiffApp, isComposite, DiffResult.isSuccess]
  · intro l r
    unfold DifferB.compareJsonV
    split_ifs <;> simp [DiffResult.isSuccess]

/-- C3 (witness for the oracle hypotheses): a concrete tokenizer oracle
parsing the two failing inputs. -/
theorem compareJson_error_channel_witness :
    ((fun s => if s = "42" then ((.num 42 : Value), ([] : List JsoncError))
               else ((.obj (.cons "a" (.num 1) .nil) : Value), ([] : List JsoncError))) "42"
        = (.num 42, [])) ∧
    (Differ.compareJson
        (fun s => if s = "42" then ((.num 42 : Value), ([] : List JsoncError))
                  else ((.obj (.cons "a" (.num 1) .nil) : Value), ([] : List JsoncError)))
        "42" "\x7b\"a\":1\x7d").isSuccess = false :=
  ⟨by decide,
   (compareJson_error_channel
      (fun s => if s = "42" then ((.num 42 : Value), ([] : List JsoncError))
                else ((.obj (.cons "a" (.num 1) .nil) : Value), ([] : List JsoncError)))
      (by decide) (by decide)).1⟩

/-- C7 (counterexample): diffing the parsed documents
`{"a":1,"b":2,"c":3}` and `{"a":10,"c":3,"d":4}` with the differ of
src/json/differ.ts yields exactly the three claimed entries — an update
of `a` from 1 to 10, a removal of `b` carrying 2 and an addition of `d`
carrying 4 — but at the dotted paths `a`, `b`, `d`, not at the pointer
paths `/a`, `/b`, `/d` the claim states. -/
theorem differ_combination_paths_not_rooted :
    Differ.compareJsonV
        (.obj (.cons "a" (.num 1) (.cons "b" (.num 2) (.cons "c" (.num 3) .nil))))
        (.obj (.cons "a" (.num 10) (.cons "c" (.num 3) (.cons "d" (.num 4) .nil)))) =
      .success [⟨.update, "a", some (.num 1), some (.num 10)⟩,
                ⟨.remove, "b", some (.num 2), none⟩,
                ⟨.add, "d", none, some (.num 4)⟩] ∧
    (("a" : String) == "/a") = false := by decide

/-- C7 (amended): the claimed three entries with the pointer paths
`/a`, `/b`, `/d` are produced, in that order, by the RFC-6901 variant
differ module; the differ of src/json/differ.ts produces the same three
entries at the dotted paths `a`, `b`, `d`. -/
theorem differB_combination :
    DifferB.compareJsonV
        (.obj (.cons "a" (.num 1) (.cons "b" (.num 2) (.cons "c" (.num 3) .nil))))
        (.obj (.cons "a" (.num 10) (.cons "c" (.num 3) (.cons "d" (.num 4) .nil)))) =
      .success [⟨.update, "/a", some (.num 1), some (.num 10)⟩,
                ⟨.remove, "/b", some (.num 2), none⟩,
                ⟨.add, "/d", none, some (.num 4)⟩] := by decide

/-! ## Claims about the parser -/

/-- Looking a key up in an association list only ever returns one of
its values. -/
theorem lookup_mem_values {α β : Type} [BEq α] :
    ∀ (l : List (α × β)) (a : α) (b : β), l.lookup a = some b → b ∈ l.map Prod.snd := by
  intro l a b
  induction l with
  | nil => intro h; simp [List.lookup] at h
  | cons p ps ih =>
    obtain ⟨k, v⟩ := p
    intro h
    simp only [List.lookup] at h
    cases hka : a == k
    · rw [hka] at h
      simp only [List.map_cons]
      exact List.mem_cons_of_mem _ (ih h)
    · rw [hka] at h
      simp only [Option.some.injEq] at h
      simp [List.map_cons, ← h]

/-- C4: `safeJsonParse` answers every blank input — the empty string
and every all-whitespace string — with the distinguished empty-input
failure at line 1, column 1, and that message is not one of the sixteen
structural syntax messages of the error table. -/
theorem safeJsonParse_blank_empty_input (p : String → Value × List JsoncError)
    (input : String) (h : jsBlank input = true) :
    safeJsonParse p input = .failure "Input is empty" 1 1 ∧
    ∀ code msg, parseErrorMessages.lookup code = some msg → msg ≠ "Input is empty" := by
  constructor
  · simp [safeJsonParse, h]
  · intro code msg hm
    have hall : ∀ m ∈ parseErrorMessages.map Prod.snd, m ≠ "Input is empty" := by decide
    exact hall _ (lookup_mem_values _ _ _ hm)

/-- C4 (witness): the empty string and a three-space string are blank,
and both are answered with the empty-input failure. -/
theorem safeJsonParse_blank_empty_input_witness :
    (jsBlank "" = true ∧
      safeJsonParse (fun _ => (.null, [])) "" = .failure "Input is empty" 1 1) ∧
    (jsBlank "   " = true ∧
      safeJsonParse (fun _ => (.null, [])) "   " = .failure "Input is empty" 1 1) :=
  ⟨⟨by decide, (safeJsonParse_blank_empty_input (fun _ => (.null, [])) "" (by decide)).1⟩,
   ⟨by decide, (safeJsonParse_blank_empty_input (fun _ => (.null, [])) "   " (by decide)).1⟩⟩

/-! ## Claims about the share codec -/

/-- C10: `fitsInPayload` and `isShareableSize` reject every blank
(empty or whitespace-only) content string outright, and accept
non-blank content exactly when its UTF-8 byte length plus the 30-byte
wrapper overhead is at most `MAX_PAYLOAD_SIZE`, which is 51200 bytes. -/
theorem fitsInPayload_spec (content : String) :
    (jsBlank content = true →
      fitsInPayload content = false ∧ isShareableSize content = false) ∧
    (jsBlank content = false →
      ((fitsInPayload content = true ↔ content.utf8ByteSize + 30 ≤ 51200) ∧
       (isShareableSize content = true ↔ content.utf8ByteSize + 30 ≤ 51200))) ∧
    MAX_PAYLOAD_SIZE = 51200 ∧ PAYLOAD_WRAPPER_OVERHEAD = 30 := by
  refine ⟨fun h => ⟨?_, ?_⟩, fun h => ⟨?_, ?_⟩, rfl, rfl⟩ <;>
    simp [fitsInPayload, isShareableSize, h, MAX_PAYLOAD_SIZE, PAYLOAD_WRAPPER_OVERHEAD]

/-- C10 (witness): a whitespace-only string is rejected although far
below the size limit, and a small non-blank string is accepted, by both
functions. -/
theorem fitsInPayload_spec_witness :
    (jsBlank "  " = true ∧ fitsInPayload "  " = false ∧ isShareableSize "  " = false) ∧
    (jsBlank "abc" = false ∧ (fitsInPayload "abc" = true ↔
      ("abc" : String).utf8ByteSize + 30 ≤ 51200)) :=
  ⟨⟨by decide, (fitsInPayload_spec "  ").1 (by decide)⟩,
   ⟨by decide, ((fitsInPayload_spec "abc").2.1 (by decide)).1⟩⟩

/-- C9: whenever decompression succeeds (with a nonempty plaintext not
exceeding the decompressed-size limit) and the plaintext parses as
JSON, but the version field of the payload is not the number 1, both
`decompress` of src/share/codec.ts and `decode` of the encoder module
return a failure and never a success carrying the payload: the
unsupported-version failure whenever the payload supports the property
access (every parsed value but `null`), and — for the `null` payload,
which has no version field at all and whose access throws — the
invalid-payload failure. -/
theorem decompress_unsupported_version (lz : String → Option String)
    (pj : String → Option Value) (encoded plain : String) (data : Value)
    (hb : jsBlank encoded = false)
    (hlz : lz encoded = some plain)
    (hne : plain ≠ "")
    (hsz : plain.length ≤ MAX_DECOMPRESSED_SIZE)
    (hpj : pj plain = some data)
    (hv : vField data ≠ some (.num 1)) :
    ((data ≠ .null →
        decompress lz pj encoded =
          .failure ("Unsupported version: " ++ versionDisplay data)) ∧
      (data = .null → decompress lz pj encoded = .failure "Invalid payload format") ∧
      (decompress lz pj encoded).isSuccess = false) ∧
    ((data ≠ .null →
        decode lz pj encoded =
          .failure ("Unsupported version: " ++ versionDisplay data)) ∧
      (data = .null → decode lz pj encoded = .failure "Invalid payload format") ∧
      (decode lz pj encoded).isSuccess = false) := by
  constructor
  · refine ⟨fun hn => ?_, fun hn => ?_, ?_⟩
    · simp [decompress, hb, hlz, hne, Nat.not_lt.mpr hsz, hpj, hv, hn]
    · simp [decompress, hb, hlz, hne, Nat.not_lt.mpr hsz, hpj, hn]
    · by_cases hn : data = Value.null
      · simp [decompress, hb, hlz, hne, Nat.not_lt.mpr hsz, hpj, hn,
          DecompressResult.isSuccess]
      · simp [decompress, hb, hlz, hne, Nat.not_lt.mpr hsz, hpj, hv, hn,
          DecompressResult.isSuccess]
  · refine ⟨fun hn => ?_, fun hn => ?_, ?_⟩
    · simp [decode, hb, hlz, hne, Nat.not_lt.mpr hsz, hpj, hv, hn]
    · simp [decode, hb, hlz, hne, Nat.not_lt.mpr hsz, hpj, hn]
    · by_cases hn : data = Value.null
      · simp [decode, hb, hlz, hne, Nat.not_lt.mpr hsz, hpj, hn,
          DecodeResult.isSuccess]
      · simp [decode, hb, hlz, hne, Nat.not_lt.mpr hsz, hpj, hv, hn,
          DecodeResult.isSuccess]

/-- C9 (witness): concrete decompression and parse oracles delivering a
version-2 payload (message `Unsupported version: 2`), an array-versioned
payload `v = [1, 2]` (message `Unsupported version: 1,2`), and the
`null` payload (message `Invalid payload format`); no case succeeds. -/
theorem decompress_unsupported_version_witness :
    decompress (fun _ => some "p") (fun _ => some (.obj (.cons "v" (.num 2)
        (.cons "d" (.str "x") .nil)))) "enc" =
      .failure "Unsupported version: 2" ∧
    decompress (fun _ => some "p") (fun _ => some (.obj (.cons "v"
        (.arr (.cons (.num 1) (.cons (.num 2) .nil)))
        (.cons "d" (.str "x") .nil)))) "enc" =
      .failure "Unsupported version: 1,2" ∧
    decompress (fun _ => some "p") (fun _ => some .null) "enc" =
      .failure "Invalid payload format" ∧
    (decode (fun _ => some "p") (fun _ => some (.obj (.cons "v" (.num 2)
        (.cons "d" (.str "x") .nil))) ) "enc").isSuccess = false := by
  have h1 := decompress_unsupported_version (fun _ => some "p")
    (fun _ => some (.obj (.cons "v" (.num 2) (.cons "d" (.str "x") .nil)))) "enc" "p"
    (.obj (.cons "v" (.num 2) (.cons "d" (.str "x") .nil)))
    (by decide) (by decide) (by decide) (by decide) (by decide) (by decide)
  have h2 := decompress_unsupported_version (fun _ => some "p")
    (fun _ => some (.obj (.cons "v" (.arr (.cons (.num 1) (.cons (.num 2) .nil)))
      (.cons "d" (.str "x") .nil)))) "enc" "p"
    (.obj (.cons "v" (.arr (.cons (.num 1) (.cons (.num 2) .nil)))
      (.cons "d" (.str "x") .nil)))
    (by decide) (by decide) (by decide) (by decide) (by decide) (by decide)
  have h3 := decompress_unsupported_version (fun _ => some "p")
    (fun _ => some .null) "enc" "p" .null
    (by decide) (by decide) (by decide) (by decide) (by decide) (by decide)
  refine ⟨?_, ?_, h3.1.2.1 rfl, ?_⟩
  · rw [h1.1.1 (by decide)]
    rfl
  · rw [h2.1.1 (by decide)]
    rfl
  · exact h1.2.2.2

/-! ## The position index (C5) -/

/-- The index of the last newline character of a list, when one exists:
the quantity the claim describes the column by. -/
def lastNewlineIdx : List Char → Option Nat
  | [] => none
  | c :: rest =>
    match lastNewlineIdx rest with
    | some i => some (i + 1)
    | none => if c = '\n' then some 0 else none

theorem splitNl_ne_nil (l : List Char) : splitNl l ≠ [] := by
  cases l with
  | nil => simp [splitNl]
  | cons c rest =>
    simp only [splitNl]
    split
    · simp
    · split <;> simp

theorem splitNl_length (l : List Char) : (splitNl l).length = l.count '\n' + 1 := by
  induction l with
  | nil => simp [splitNl]
  | cons c rest ih =>
    simp only [splitNl]
    by_cases h : c = '\n'
    · simp [h, List.count_cons, ih]
    · simp only [if_neg h]
      cases hs : splitNl rest with
      | nil => exact absurd hs (splitNl_ne_nil rest)
      | cons p ps =>
        have : (p :: ps).length = rest.count '\n' + 1 := hs ▸ ih
        simp [List.count_cons, h, ← this]

theorem lastNewlineIdx_none (l : List Char) : lastNewlineIdx l = none ↔ '\n' ∉ l := by
  induction l with
  | nil => simp [lastNewlineIdx]
  | cons c rest ih =>
    simp only [lastNewlineIdx]
    cases hr : lastNewlineIdx rest with
    | some i => simp [List.mem_cons, ← ih, hr]
    | none =>
      by_cases h : c = '\n'
      · simp [h, List.mem_cons]
      · simp [h, List.mem_cons, ← ih, hr, Ne.symm h]

theorem splitNl_no_newline (l : List Char) (h : '\n' ∉ l) : splitNl l = [l] := by
  induction l with
  | nil => simp [splitNl]
  | cons c rest ih =>
    have hc : c ≠ '\n' := fun hc => h (hc ▸ List.mem_cons_self c rest)
    have hr : '\n' ∉ rest := fun hr => h (List.mem_cons_of_mem _ hr)
    simp [splitNl, hc, ih hr]

theorem lastNewlineIdx_lt (l : List Char) (i : Nat) (h : lastNewlineIdx l = some i) :
    i < l.length := by
  induction l generalizing i with
  | nil => simp [lastNewlineIdx] at h
  | cons c rest ih =>
    simp only [lastNewlineIdx] at h
    cases hr : lastNewlineIdx rest with
    | some j =>
      rw [hr] at h
      simp only [Option.some.injEq] at h
      have := ih j hr
      simp only [List.length_cons]
      omega
    | none =>
      rw [hr] at h
      by_cases hc : c = '\n'
      · simp [hc] at h
        simp [← h]
      · simp [hc] at h

theorem splitNl_last_length (l : List Char) :
    ((splitNl l).getLastD []).length =
      match lastNewlineIdx l with
      | none => l.length
      | some i => l.length - (i + 1) := by
  induction l with
  | nil => simp [splitNl, lastNewlineIdx]
  | cons c rest ih =>
    simp only [splitNl, lastNewlineIdx]
    cases hr : lastNewlineIdx rest with
    | some i =>
      rw [hr] at ih
      replace ih : ((splitNl rest).getLastD []).length = rest.length - (i + 1) := by rw [ih]
      have hi : i < rest.length := lastNewlineIdx_lt rest i hr
      by_cases hc : c = '\n'
      · simp only [if_pos hc]
        cases hs : splitNl rest with
        | nil => exact absurd hs (splitNl_ne_nil rest)
        | cons p ps =>
          rw [hs] at ih
          show ((p :: ps).getLastD []).length = (c :: rest).length - (i + 1 + 1)
          rw [ih]
          simp only [List.length_cons]
          omega
      · simp only [if_neg hc]
        cases hs : splitNl rest with
        | nil => exact absurd hs (splitNl_ne_nil rest)
        | cons p ps =>
          rw [hs] at ih
          cases ps with
          | nil =>
            have hcount : (splitNl rest).length = rest.count '\n' + 1 :=
              splitNl_length rest
            rw [hs] at hcount
            simp at hcount
            have hnone : '\n' ∉ rest := by
              intro hmem
              rw [List.count_eq_zero] at hcount
              exact hcount hmem
            rw [(lastNewlineIdx_none rest).mpr hnone] at hr
            cases hr
          | cons q qs =>
            show (((c :: p) :: q :: qs).getLastD []).length = (c :: rest).length - (i + 1 + 1)
            simp only [List.getLastD_cons] at ih ⊢
            rw [ih]
            simp only [List.length_cons]
            omega
    | none =>
      rw [hr] at ih
      replace ih : ((splitNl rest).getLastD []).length = rest.length := by rw [ih]
      have hno : '\n' ∉ rest := (lastNewlineIdx_none rest).mp hr
      by_cases hc : c = '\n'
      · simp only [if_pos hc]
        cases hs : splitNl rest with
        | nil => exact absurd hs (splitNl_ne_nil rest)
        | cons p ps =>
          rw [hs] at ih
          show ((p :: ps).getLastD []).length = (c :: rest).length - (0 + 1)
          rw [ih]
          simp
      · simp only [if_neg hc]
        rw [splitNl_no_newline rest hno]
        show (((c :: rest) :: ([] : List (List Char))).getLastD []).length = (c :: rest).length
        simp

/-- C5: for every text and every offset at most its length, the
conversion returns line = (number of newline characters in the prefix
before the offset) + 1, and column = offset minus the index of the last
newline before the offset when one exists and offset + 1 otherwise;
both results are at least 1.  The function is total by construction. -/
theorem offsetToLineColumn_spec (input : String) (offset : Nat)
    (h : offset ≤ input.length) :
    (offsetToLineColumn input offset).1 = (input.toList.take offset).count '\n' + 1 ∧
    (offsetToLineColumn input offset).2 =
      (match lastNewlineIdx (input.toList.take offset) with
       | none => offset + 1
       | some i => offset - i) ∧
    1 ≤ (offsetToLineColumn input offset).1 ∧
    1 ≤ (offsetToLineColumn input offset).2 := by
  have hlen : (input.toList.take offset).length = offset := by
    rw [List.length_take]
    have hl : input.toList.length = input.length := rfl
    omega
  have h1 : (offsetToLineColumn input offset).1 =
      (splitNl (input.toList.take offset)).length := rfl
  have h2 : (offsetToLineColumn input offset).2 =
      ((splitNl (input.toList.take offset)).getLastD []).length + 1 := rfl
  refine ⟨?_, ?_, ?_, ?_⟩
  · rw [h1, splitNl_length]
  · rw [h2, splitNl_last_length]
    cases hr : lastNewlineIdx (input.toList.take offset) with
    | none =>
      show (input.toList.take offset).length + 1 = offset + 1
      rw [hlen]
    | some i =>
      have hi : i < offset := hlen ▸ lastNewlineIdx_lt _ _ hr
      show ((input.toList.take offset).length - (i + 1)) + 1 = offset - i
      rw [hlen]
      omega
  · rw [h1, splitNl_length]
    omega
  · rw [h2]
    omega

/-- C5 (witness): the conversion evaluated on the text `ab`, newline,
`cd` at offset 4: line 2, column 2. -/
theorem offsetToLineColumn_spec_witness :
    4 ≤ ("ab\ncd" : String).length ∧
    ((offsetToLineColumn "ab\ncd" 4).1 =
        (("ab\ncd" : String).toList.take 4).count '\n' + 1 ∧
      (offsetToLineColumn "ab\ncd" 4).2 =
        (match lastNewlineIdx (("ab\ncd" : String).toList.take 4) with
         | none => 4 + 1
         | some i => 4 - i) ∧
      1 ≤ (offsetToLineColumn "ab\ncd" 4).1 ∧
      1 ≤ (offsetToLineColumn "ab\ncd" 4).2) :=
  ⟨by decide, offsetToLineColumn_spec "ab\ncd" 4 (by decide)⟩

/-! ## Diff of a value with itself (C6) -/

/-- Spine induction for field lists (the generic `induction` tactic
cannot use the multi-motive recursor of the mutual value type). -/
theorem flistSpineInduction {motive : FList → Prop} (nil : motive .nil)
    (cons : ∀ k v rest, motive rest → motive (.cons k v rest)) :
    ∀ fs, motive fs
  | .nil => nil
  | .cons k v rest => cons k v rest (flistSpineInduction nil cons rest)

/-- Spine induction for value lists. -/
theorem vlistSpineInduction {motive : VList → Prop} (nil : motive .nil)
    (cons : ∀ v rest, motive rest → motive (.cons v rest)) :
    ∀ xs, motive xs
  | .nil => nil
  | .cons v rest => cons v rest (vlistSpineInduction nil cons rest)

theorem Value.size_pos : ∀ v : Value, 1 ≤ v.size := by
  intro v
  cases v <;> simp [Value.size]

theorem size_lt_of_mem_entries (fs : FList) (k : String) (v : Value)
    (h : (k, v) ∈ fs.entries) : v.size < fs.size := by
  induction fs using flistSpineInduction with
  | nil => simp [FList.entries] at h
  | cons k' v' rest ih =>
    simp only [FList.entries, List.mem_cons] at h
    rcases h with h | h
    · cases h
      simp [FList.size]
      omega
    · have := ih h
      simp [FList.size]
      omega

theorem size_lt_of_mem_toList (xs : VList) (v : Value)
    (h : v ∈ xs.toList) : v.size < xs.size := by
  induction xs using vlistSpineInduction with
  | nil => simp [VList.toList] at h
  | cons v' rest ih =>
    simp only [VList.toList, List.mem_cons] at h
    rcases h with h | h
    · cases h
      simp [VList.size]
      omega
    · have := ih h
      simp [VList.size]
      omega

theorem lookupV_isSome_of_mem (fs : FList) (k : String) (v : Value)
    (h : (k, v) ∈ fs.entries) : (lookupV k fs).isSome = true := by
  induction fs using flistSpineInduction with
  | nil => simp [FList.entries] at h
  | cons k' v' rest ih =>
    simp only [FList.entries, List.mem_cons] at h
    simp only [lookupV]
    by_cases hk : k' = k
    · simp [hk]
    · rcases h with h | h
      · cases h
        exact absurd rfl hk
      · simp [hk, ih h]

theorem lookupV_eq_of_mem_nodup (fs : FList) (k : String) (v : Value)
    (hnd : keysNodup fs = true) (h : (k, v) ∈ fs.entries) :
    lookupV k fs = some v := by
  induction fs using flistSpineInduction with
  | nil => simp [FList.entries] at h
  | cons k' v' rest ih =>
    simp only [keysNodup, Bool.and_eq_true, Bool.not_eq_true'] at hnd
    simp only [FList.entries, List.mem_cons] at h
    simp only [lookupV]
    rcases h with h | h
    · cases h
      simp
    · by_cases hk : k' = k
      · subst hk
        have := lookupV_isSome_of_mem rest k' v h
        rw [FList.hasKey] at hnd
        rw [this] at hnd
        cases hnd.1
      · simp [hk, ih hnd.2 h]

theorem WFf_mem (fs : FList) (k : String) (v : Value)
    (hwf : WFf fs = true) (h : (k, v) ∈ fs.entries) : WF v = true := by
  induction fs using flistSpineInduction with
  | nil => simp [FList.entries] at h
  | cons k' v' rest ih =>
    simp only [WFf, Bool.and_eq_true] at hwf
    simp only [FList.entries, List.mem_cons] at h
    rcases h with h | h
    · cases h
      exact hwf.1
    · exact ih hwf.2 h

theorem WFv_mem (xs : VList) (v : Value)
    (hwf : WFv xs = true) (h : v ∈ xs.toList) : WF v = true := by
  induction xs using vlistSpineInduction with
  | nil => simp [VList.toList] at h
  | cons v' rest ih =>
    simp only [WFv, Bool.and_eq_true] at hwf
    simp only [VList.toList, List.mem_cons] at h
    rcases h with h | h
    · cases h
      exact hwf.1
    · exact ih hwf.2 h

theorem objPass_self (lf1 lf2 : FList)
    (hlk : ∀ k v, (k, v) ∈ lf1.entries → lookupV k lf2 = some v)
    (hmd : ∀ k v, (k, v) ∈ lf1.entries → microdiff v v = []) :
    objPass lf1 lf2 = [] := by
  induction lf1 using flistSpineInduction with
  | nil => rfl
  | cons k v rest ih =>
    rw [objPass_cons]
    have hm : (k, v) ∈ (FList.cons k v rest).entries := by
      simp [FList.entries]
    rw [hlk k v hm]
    have hstep : sharedStep (.key k) v v = [] := by
      rw [sharedStep]
      by_cases hsk : sameKindComposite v v = true
      · simp [hsk, hmd k v hm]
      · simp [hsk]
    show sharedStep (.key k) v v ++ objPass rest lf2 = []
    rw [hstep]
    simp only [List.nil_append]
    exact ih (fun k' v' h' => hlk k' v' (by simp [FList.entries, h']))
      (fun k' v' h' => hmd k' v' (by simp [FList.entries, h']))

theorem objAdds_self (lf rf : FList)
    (hk : ∀ k v, (k, v) ∈ rf.entries → (lookupV k lf).isSome = true) :
    objAdds lf rf = [] := by
  induction rf using flistSpineInduction with
  | nil => rfl
  | cons k w rest ih =>
    simp only [objAdds]
    have hs := hk k w (by simp [FList.entries])
    cases hl : lookupV k lf with
    | none => rw [hl] at hs; simp [Option.isSome] at hs
    | some u =>
      show ([] : List MDiff) ++ objAdds lf rest = []
      simp only [List.nil_append]
      exact ih (fun k' v' h' => hk k' v' (by simp [FList.entries, h']))

theorem arrPass_self (la : VList)
    (hmd : ∀ v ∈ la.toList, microdiff v v = []) :
    ∀ i, arrPass i la la = [] := by
  induction la using vlistSpineInduction with
  | nil => intro i; rfl
  | cons v rest ih =>
    intro i
    rw [arrPass_cons_cons]
    have hm : v ∈ (VList.cons v rest).toList := by simp [VList.toList]
    have : sharedStep (.idx i) v v = [] := by
      rw [sharedStep]
      by_cases hsk : sameKindComposite v v = true
      · simp [hsk, hmd v hm]
      · simp [hsk]
    rw [this]
    simp only [List.nil_append]
    exact ih (fun v' h' => hmd v' (by simp [VList.toList, h'])) (i + 1)

theorem VList.drop_length_self (xs : VList) : xs.drop xs.length = .nil := by
  induction xs using vlistSpineInduction with
  | nil => rfl
  | cons v rest ih =>
    show VList.drop (rest.length + 1) (.cons v rest) = .nil
    rw [VList.drop]
    exact ih

theorem microdiff_self : ∀ n, ∀ v : Value, v.size ≤ n → WF v = true →
    microdiff v v = [] := by
  intro n
  induction n with
  | zero =>
    intro v hs _
    have := Value.size_pos v
    omega
  | succ n ih =>
    intro v hs hwf
    cases v with
    | null => rfl
    | bool b => rfl
    | num m => rfl
    | str s => rfl
    | arr xs =>
      show arrPass 0 xs xs ++ arrAdds xs.length (xs.drop xs.length) = []
      rw [VList.drop_length_self]
      rw [arrPass_self xs ?hmd 0]
      · rfl
      case hmd =>
        intro v hv
        have h1 : v.size < xs.size := size_lt_of_mem_toList xs v hv
        have h2 : (Value.arr xs).size = xs.size + 1 := rfl
        exact ih v (by omega) (WFv_mem xs v hwf hv)
    | obj fs =>
      have hwf2 : keysNodup fs = true ∧ WFf fs = true := by
        have heq : WF (.obj fs) = (keysNodup fs && WFf fs) := rfl
        rw [heq, Bool.and_eq_true] at hwf
        exact hwf
      show objPass fs fs ++ objAdds fs fs = []
      rw [objPass_self fs fs
        (fun k v h => lookupV_eq_of_mem_nodup fs k v hwf2.1 h)
        (fun k v h => by
          have h1 : v.size < fs.size := size_lt_of_mem_entries fs k v h
          have h2 : (Value.obj fs).size = fs.size + 1 := rfl
          exact ih v (by omega) (WFf_mem fs k v hwf2.2 h))]
      rw [objAdds_self fs fs
        (fun k v h => lookupV_isSome_of_mem fs k v h)]
      rfl

/-- C6: for every well-formed value, diffing the value against itself —
with either version of the differ — succeeds with an empty list of
differences. -/
theorem diff_self (v : Value) (h : WF v = true) :
    Differ.compareJsonV v v = .success [] ∧ DifferB.compareJsonV v v = .success [] := by
  have hmd : microdiff v v = [] := microdiff_self v.size v le_rfl h
  constructor
  · rw [Differ.compareJsonV]
    by_cases hc : isComposite v = true
    · simp [hc, Differ.microdiffApp, hmd]
    · simp [hc]
  · rw [DifferB.compareJsonV]
    by_cases hc : isComposite v = true
    · simp [hc, hmd]
    · simp [hc]

/-- C6 (witness): the nested document `{"a": 1, "b": [1, {"c": true}]}`
is well formed and diffs against itself to the empty list. -/
theorem diff_self_witness :
    WF (.obj (.cons "a" (.num 1) (.cons "b" (.arr (.cons (.num 1)
      (.cons (.obj (.cons "c" (.bool true) .nil)) .nil))) .nil))) = true ∧
    Differ.compareJsonV
      (.obj (.cons "a" (.num 1) (.cons "b" (.arr (.cons (.num 1)
        (.cons (.obj (.cons "c" (.bool true) .nil)) .nil))) .nil)))
      (.obj (.cons "a" (.num 1) (.cons "b" (.arr (.cons (.num 1)
        (.cons (.obj (.cons "c" (.bool true) .nil)) .nil))) .nil))) = .success [] :=
  ⟨by decide,
   (diff_self (.obj (.cons "a" (.num 1) (.cons "b" (.arr (.cons (.num 1)
      (.cons (.obj (.cons "c" (.bool true) .nil)) .nil))) .nil))) (by decide)).1⟩

/-! ## Symmetry of the diff (C8)

The correspondence between `diff(v1, v2)` and `diff(v2, v1)` is stated
as a multiset equation: the reversed diff is, up to reordering, the
image of the original diff under the kind-swapping involution (`Add` at
a path becomes `Remove` at that path and conversely, `Update` swaps its
two values).  The object case is proved by decomposing both passes of
the modelled structural diff into a sum over the key set of per-key
contributions. -/

/-- The kind-swapping involution on microdiff records. -/
def swapM (e : MDiff) : MDiff :=
  match e.type with
  | .create => ⟨.remove, e.path, e.value, none⟩
  | .remove => ⟨.create, e.path, none, e.oldValue⟩
  | .change => ⟨.change, e.path, e.value, e.oldValue⟩

/-- The kind-swapping involution on public diff entries. -/
def swapEntry (e : DiffEntry) : DiffEntry :=
  match e.type with
  | .add => ⟨.remove, e.path, e.newValue, none⟩
  | .remove => ⟨.add, e.path, none, e.oldValue⟩
  | .update => ⟨.update, e.path, e.newValue, e.oldValue⟩

theorem swapM_prependSeg (s : Seg) (e : MDiff) :
    swapM (prependSeg s e) = prependSeg s (swapM e) := by
  obtain ⟨t, p, o, v⟩ := e
  cases t <;> rfl

theorem sameKindComposite_symm (v w : Value) :
    sameKindComposite w v = sameKindComposite v w := by
  cases v <;> cases w <;> rfl

theorem lookupV_cons_self (k : String) (v : Value) (rest : FList) :
    lookupV k (.cons k v rest) = some v := by
  simp [lookupV]

theorem lookupV_cons_ne (k k' : String) (v : Value) (rest : FList) (h : k ≠ k') :
    lookupV k' (.cons k v rest) = lookupV k' rest := by
  simp [lookupV, h]

theorem hasKey_iff_mem_keys (fs : FList) (k : String) :
    fs.hasKey k = true ↔ k ∈ fs.keys := by
  induction fs using flistSpineInduction with
  | nil => simp [FList.hasKey, lookupV, FList.keys]
  | cons k' v rest ih =>
    simp only [FList.hasKey, lookupV, FList.keys, List.mem_cons]
    by_cases hk : k' = k
    · simp [hk]
    · rw [FList.hasKey] at ih
      simp [hk, ih, Ne.symm hk]

theorem lookupV_eq_none_iff (fs : FList) (k : String) :
    lookupV k fs = none ↔ ¬ (k ∈ fs.keys) := by
  rw [← hasKey_iff_mem_keys]
  rw [FList.hasKey]
  cases h : lookupV k fs <;> simp [Option.isSome]

theorem lookupV_some_mem (fs : FList) (k : String) (v : Value)
    (h : lookupV k fs = some v) : (k, v) ∈ fs.entries := by
  induction fs using flistSpineInduction with
  | nil => simp [lookupV] at h
  | cons k' v' rest ih =>
    rw [lookupV] at h
    by_cases hk : k' = k
    · rw [if_pos hk] at h
      cases h
      subst hk
      simp [FList.entries]
    · rw [if_neg hk] at h
      simp [FList.entries, ih h]

/-- The per-key contribution of the structural diff of two objects, as
a function of the two lookups of the key. -/
def pc (k : String) : Option Value → Option Value → List MDiff
  | none, none => []
  | some v, none => [(⟨.remove, [.key k], some v, none⟩ : MDiff)]
  | none, some w => [(⟨.create, [.key k], none, some w⟩ : MDiff)]
  | some v, some w => sharedStep (.key k) v w

theorem keyStep_eq_pc (k : String) (v : Value) (rf : FList) :
    (match lookupV k rf with
     | none => [(⟨.remove, [.key k], some v, none⟩ : MDiff)]
     | some w => sharedStep (.key k) v w) = pc k (some v) (lookupV k rf) := by
  cases h : lookupV k rf <;> rfl

theorem sharedStep_swap (s : Seg) (v w : Value)
    (hrec : ((microdiff w v : List MDiff) : Multiset MDiff) =
      Multiset.map swapM ((microdiff v w : List MDiff) : Multiset MDiff)) :
    ((sharedStep s w v : List MDiff) : Multiset MDiff) =
      Multiset.map swapM ((sharedStep s v w : List MDiff) : Multiset MDiff) := by
  rw [sharedStep, sharedStep, sameKindComposite_symm v w]
  by_cases hk : sameKindComposite v w = true
  · rw [if_pos hk, if_pos hk]
    rw [← Multiset.map_coe, ← Multiset.map_coe, hrec, Multiset.map_map, Multiset.map_map]
    apply Multiset.map_congr rfl
    intro e he
    simp [Function.comp, swapM_prependSeg]
  · rw [if_neg hk, if_neg hk]
    by_cases he : v = w
    · subst he
      simp
    · rw [if_neg (fun hwv => he hwv.symm), if_neg he]
      rfl

theorem pc_swap (k : String) (a b : Option Value)
    (hrec : ∀ v w, a = some v → b = some w →
      ((microdiff w v : List MDiff) : Multiset MDiff) =
        Multiset.map swapM ((microdiff v w : List MDiff) : Multiset MDiff)) :
    ((pc k b a : List MDiff) : Multiset MDiff) =
      Multiset.map swapM ((pc k a b : List MDiff) : Multiset MDiff) := by
  cases a with
  | none =>
    cases b with
    | none => rfl
    | some w => rfl
  | some v =>
    cases b with
    | none => rfl
    | some w => exact sharedStep_swap (.key k) v w (hrec v w rfl rfl)

theorem objPass_multiset (lf rf : FList) (hnd : keysNodup lf = true) :
    ((objPass lf rf : List MDiff) : Multiset MDiff) =
      ∑ k ∈ lf.keys.toFinset,
        ((pc k (lookupV k lf) (lookupV k rf) : List MDiff) : Multiset MDiff) := by
  induction lf using flistSpineInduction with
  | nil => simp [objPass, FList.keys]
  | cons k v rest ih =>
    rw [keysNodup, Bool.and_eq_true, Bool.not_eq_true'] at hnd
    obtain ⟨hnk, hnd2⟩ := hnd
    have hknotin : k ∉ rest.keys.toFinset := by
      rw [List.mem_toFinset, ← hasKey_iff_mem_keys]
      simp [hnk]
    have hkeys : (FList.cons k v rest).keys.toFinset = insert k rest.keys.toFinset := by
      simp [FList.keys]
    rw [objPass_cons, keyStep_eq_pc, hkeys, Finset.sum_insert hknotin, ← Multiset.coe_add]
    congr 1
    · rw [lookupV_cons_self]
    · rw [ih hnd2]
      apply Finset.sum_congr rfl
      intro k' hk'
      have hke : k ≠ k' := fun he => hknotin (he ▸ hk')
      rw [lookupV_cons_ne _ _ _ _ hke]

theorem objAdds_multiset (lf rf : FList) (hnd : keysNodup rf = true) :
    ((objAdds lf rf : List MDiff) : Multiset MDiff) =
      ∑ k ∈ rf.keys.toFinset \ lf.keys.toFinset,
        ((pc k none (lookupV k rf) : List MDiff) : Multiset MDiff) := by
  induction rf using flistSpineInduction with
  | nil => simp [objAdds, FList.keys]
  | cons k w rest ih =>
    rw [keysNodup, Bool.and_eq_true, Bool.not_eq_true'] at hnd
    obtain ⟨hnk, hnd2⟩ := hnd
    have hknotin : k ∉ rest.keys.toFinset := by
      rw [List.mem_toFinset, ← hasKey_iff_mem_keys]
      simp [hnk]
    have hkeys : (FList.cons k w rest).keys.toFinset = insert k rest.keys.toFinset := by
      simp [FList.keys]
    have hcongr : ∀ u ∈ rest.keys.toFinset \ lf.keys.toFinset,
        ((pc u none (lookupV u rest) : List MDiff) : Multiset MDiff) =
        ((pc u none (lookupV u (.cons k w rest)) : List MDiff) : Multiset MDiff) := by
      intro u hu
      rw [Finset.mem_sdiff] at hu
      have hne : k ≠ u := fun he => hknotin (he ▸ hu.1)
      rw [lookupV_cons_ne _ _ _ _ hne]
    rw [objAdds, hkeys]
    cases hl : lookupV k lf with
    | some u =>
      have hmem : k ∈ lf.keys.toFinset := by
        rw [List.mem_toFinset, ← hasKey_iff_mem_keys, FList.hasKey, hl]
        rfl
      rw [Finset.insert_sdiff_of_mem _ hmem]
      show ((([] ++ objAdds lf rest : List MDiff)) : Multiset MDiff) = _
      rw [List.nil_append, ih hnd2]
      exact Finset.sum_congr rfl hcongr
    | none =>
      have hmem : k ∉ lf.keys.toFinset := by
        rw [List.mem_toFinset, ← hasKey_iff_mem_keys, FList.hasKey, hl]
        simp
      rw [Finset.insert_sdiff_of_not_mem _ hmem]
      have hknotin2 : k ∉ rest.keys.toFinset \ lf.keys.toFinset := by
        rw [Finset.mem_sdiff]
        exact fun hcon => hknotin hcon.1
      rw [Finset.sum_insert hknotin2]
      show ((([(⟨.create, [.key k], none, some w⟩ : MDiff)] ++ objAdds lf rest :
          List MDiff)) : Multiset MDiff) = _
      rw [← Multiset.coe_add]
      congr 1
      · rw [lookupV_cons_self]
        rfl
      · rw [ih hnd2]
        exact Finset.sum_congr rfl hcongr

theorem map_swapM_sum (s : Finset String) (f : String → Multiset MDiff) :
    Multiset.map swapM (∑ k ∈ s, f k) = ∑ k ∈ s, Multiset.map swapM (f k) := by
  classical
  induction s using Finset.induction_on with
  | empty => simp
  | insert hnotin ih =>
    rw [Finset.sum_insert hnotin, Finset.sum_insert hnotin, Multiset.map_add, ih]

theorem microdiff_obj_multiset (lf rf : FList)
    (h1 : keysNodup lf = true) (h2 : keysNodup rf = true) :
    ((microdiff (.obj lf) (.obj rf) : List MDiff) : Multiset MDiff) =
      ∑ k ∈ lf.keys.toFinset ∪ rf.keys.toFinset,
        ((pc k (lookupV k lf) (lookupV k rf) : List MDiff) : Multiset MDiff) := by
  show ((objPass lf rf ++ objAdds lf rf : List MDiff) : Multiset MDiff) = _
  rw [← Multiset.coe_add, objPass_multiset lf rf h1, objAdds_multiset lf rf h2]
  have hsub : ∑ k ∈ rf.keys.toFinset \ lf.keys.toFinset,
      ((pc k none (lookupV k rf) : List MDiff) : Multiset MDiff) =
    ∑ k ∈ rf.keys.toFinset \ lf.keys.toFinset,
      ((pc k (lookupV k lf) (lookupV k rf) : List MDiff) : Multiset MDiff) := by
    apply Finset.sum_congr rfl
    intro k hk
    rw [Finset.mem_sdiff] at hk
    have hnone : lookupV k lf = none := by
      rw [lookupV_eq_none_iff]
      exact fun hmem => hk.2 (List.mem_toFinset.mpr hmem)
    rw [hnone]
  rw [hsub, ← Finset.sum_union Finset.disjoint_sdiff, Finset.union_sdiff_self_eq_union]

theorem VList.drop_nil (n : Nat) : VList.drop n .nil = .nil := by
  cases n <;> rfl

theorem arrPass_nil_swap (ra : VList) : ∀ i : Nat,
    ((arrPass i ra .nil : List MDiff) : Multiset MDiff) =
      Multiset.map swapM ((arrAdds i ra : List MDiff) : Multiset MDiff) := by
  induction ra using vlistSpineInduction with
  | nil => intro i; rfl
  | cons w rest ih =>
    intro i
    show (((⟨.remove, [.idx i], some w, none⟩ : MDiff) :: arrPass (i+1) rest .nil :
        List MDiff) : Multiset MDiff) =
      Multiset.map swapM (((⟨.create, [.idx i], none, some w⟩ : MDiff) ::
        arrAdds (i+1) rest : List MDiff) : Multiset MDiff)
    rw [← Multiset.cons_coe, ← Multiset.cons_coe, Multiset.map_cons, ih (i+1)]
    rfl

theorem arrAdds_swap (la : VList) : ∀ i : Nat,
    ((arrAdds i la : List MDiff) : Multiset MDiff) =
      Multiset.map swapM ((arrPass i la .nil : List MDiff) : Multiset MDiff) := by
  induction la using vlistSpineInduction with
  | nil => intro i; rfl
  | cons v rest ih =>
    intro i
    show (((⟨.create, [.idx i], none, some v⟩ : MDiff) :: arrAdds (i+1) rest :
        List MDiff) : Multiset MDiff) =
      Multiset.map swapM (((⟨.remove, [.idx i], some v, none⟩ : MDiff) ::
        arrPass (i+1) rest .nil : List MDiff) : Multiset MDiff)
    rw [← Multiset.cons_coe, ← Multiset.cons_coe, Multiset.map_cons, ih (i+1)]
    rfl

theorem arr_symm (la : VList) : ∀ (ra : VList) (i : Nat),
    (∀ v w, v ∈ la.toList → w ∈ ra.toList →
      ((microdiff w v : List MDiff) : Multiset MDiff) =
        Multiset.map swapM ((microdiff v w : List MDiff) : Multiset MDiff)) →
    ((arrPass i ra la ++ arrAdds (i + ra.length) (VList.drop ra.length la) :
        List MDiff) : Multiset MDiff) =
      Multiset.map swapM
        ((arrPass i la ra ++ arrAdds (i + la.length) (VList.drop la.length ra) :
          List MDiff) : Multiset MDiff) := by
  induction la using vlistSpineInduction with
  | nil =>
    intro ra i _
    rw [VList.drop_nil]
    show ((arrPass i ra .nil ++ ([] : List MDiff) : List MDiff) : Multiset MDiff) =
      Multiset.map swapM ((([] : List MDiff) ++ arrAdds i ra : List MDiff) : Multiset MDiff)
    rw [List.append_nil, List.nil_append]
    exact arrPass_nil_swap ra i
  | cons v lt ih =>
    intro ra i hrec
    cases ra with
    | nil =>
      rw [VList.drop_nil]
      show ((([] : List MDiff) ++ arrAdds i (.cons v lt) : List MDiff) : Multiset MDiff) =
        Multiset.map swapM ((arrPass i (.cons v lt) .nil ++ ([] : List MDiff) :
          List MDiff) : Multiset MDiff)
      rw [List.append_nil, List.nil_append]
      exact arrAdds_swap (.cons v lt) i
    | cons w rt =>
      rw [arrPass_cons_cons, arrPass_cons_cons]
      have h1 : i + VList.length (.cons w rt) = (i + 1) + rt.length := by
        show i + (rt.length + 1) = (i + 1) + rt.length
        omega
      have h2 : i + VList.length (.cons v lt) = (i + 1) + lt.length := by
        show i + (lt.length + 1) = (i + 1) + lt.length
        omega
      have h3 : VList.drop (VList.length (.cons w rt)) (.cons v lt) =
        VList.drop rt.length lt := rfl
      have h4 : VList.drop (VList.length (.cons v lt)) (.cons w rt) =
        VList.drop lt.length rt := rfl
      rw [h1, h2, h3, h4, List.append_assoc, List.append_assoc,
        ← Multiset.coe_add, ← Multiset.coe_add, ← Multiset.coe_add,
        ← Multiset.coe_add, Multiset.map_add]
      congr 1
      · exact sharedStep_swap (.idx i) v w
          (hrec v w (by simp [VList.toList]) (by simp [VList.toList]))
      · exact ih rt (i+1) (fun v' w' hv hw =>
          hrec v' w' (by simp [VList.toList, hv]) (by simp [VList.toList, hw]))

theorem sameKind_cases (l r : Value) (h : sameKindComposite l r = true) :
    (∃ lf rf, l = .obj lf ∧ r = .obj rf) ∨ (∃ la ra, l = .arr la ∧ r = .arr ra) := by
  cases l <;> cases r <;> simp_all [sameKindComposite]

theorem microdiff_not_same_kind (l r : Value) (h : sameKindComposite l r = false) :
    microdiff l r = [] := by
  cases l <;> cases r <;> first | rfl | simp [sameKindComposite] at h

theorem WF_obj (fs : FList) (h : WF (.obj fs) = true) :
    keysNodup fs = true ∧ WFf fs = true := by
  have heq : WF (.obj fs) = (keysNodup fs && WFf fs) := rfl
  rw [heq, Bool.and_eq_true] at h
  exact h

/-- Reversing the two inputs of the modelled structural diff reorders
the diff and applies the kind-swapping involution to every entry. -/
theorem md_symm : ∀ n, ∀ l r : Value, l.size + r.size ≤ n →
    WF l = true → WF r = true →
    ((microdiff r l : List MDiff) : Multiset MDiff) =
      Multiset.map swapM ((microdiff l r : List MDiff) : Multiset MDiff) := by
  intro n
  induction n with
  | zero =>
    intro l r hs _ _
    exact absurd hs (by have := Value.size_pos l; have := Value.size_pos r; omega)
  | succ n ih =>
    intro l r hs hwl hwr
    cases hsk : sameKindComposite l r with
    | false =>
      rw [microdiff_not_same_kind l r hsk,
        microdiff_not_same_kind r l (by rw [sameKindComposite_symm]; exact hsk)]
      rfl
    | true =>
      rcases sameKind_cases l r hsk with ⟨lf, rf, hl, hr⟩ | ⟨la, ra, hl, hr⟩
      · subst hl
        subst hr
        obtain ⟨hnl, hfl⟩ := WF_obj lf hwl
        obtain ⟨hnr, hfr⟩ := WF_obj rf hwr
        rw [microdiff_obj_multiset rf lf hnr hnl, microdiff_obj_multiset lf rf hnl hnr,
          map_swapM_sum, Finset.union_comm]
        apply Finset.sum_congr rfl
        intro k _
        apply pc_swap
        intro v w hv hw
        have hmv := lookupV_some_mem lf k v hv
        have hmw := lookupV_some_mem rf k w hw
        have hsv : v.size < lf.size := size_lt_of_mem_entries lf k v hmv
        have hsw : w.size < rf.size := size_lt_of_mem_entries rf k w hmw
        have hszl : (Value.obj lf).size = lf.size + 1 := rfl
        have hszr : (Value.obj rf).size = rf.size + 1 := rfl
        exact ih v w (by omega) (WFf_mem lf k v hfl hmv) (WFf_mem rf k w hfr hmw)
      · subst hl
        subst hr
        have h := arr_symm la ra 0 (fun v w hv hw => by
          have hsv : v.size < la.size := size_lt_of_mem_toList la v hv
          have hsw : w.size < ra.size := size_lt_of_mem_toList ra w hw
          have hszl : (Value.arr la).size = la.size + 1 := rfl
          have hszr : (Value.arr ra).size = ra.size + 1 := rfl
          exact ih v w (by omega) (WFv_mem la v hwl hv) (WFv_mem ra w hwr hw))
        rw [Nat.zero_add, Nat.zero_add] at h
        exact h

theorem convertDiff_swapM (d : MDiff) :
    Differ.convertDiff (swapM d) = swapEntry (Differ.convertDiff d) := by
  obtain ⟨t, p, o, v⟩ := d
  cases t <;> rfl

/-- C8: for well-formed composite values `v1 ≠ v2`, the diff of `v2`
against `v1` is, as a multiset, the image of the diff of `v1` against
`v2` under the kind-swapping involution (and conversely); hence the two
diffs have the same number of entries, every `add` at a path in one
direction corresponds to a `remove` at that path carrying the same
value in the other, and every `update` at a path corresponds to an
`update` at that path with `oldValue` and `newValue` swapped. -/
theorem diff_symm (v1 v2 : Value) (h1 : WF v1 = true) (h2 : WF v2 = true)
    (hc1 : isComposite v1 = true) (hc2 : isComposite v2 = true) (_hne : v1 ≠ v2) :
    (((Differ.compareJsonV v2 v1).differences : List DiffEntry) : Multiset DiffEntry) =
      Multiset.map swapEntry
        (((Differ.compareJsonV v1 v2).differences : List DiffEntry) : Multiset DiffEntry) ∧
    (((Differ.compareJsonV v1 v2).differences : List DiffEntry) : Multiset DiffEntry) =
      Multiset.map swapEntry
        (((Differ.compareJsonV v2 v1).differences : List DiffEntry) : Multiset DiffEntry) ∧
    (Differ.compareJsonV v2 v1).differences.length =
      (Differ.compareJsonV v1 v2).differences.length ∧
    (∀ p w, (⟨.add, p, none, some w⟩ : DiffEntry) ∈ (Differ.compareJsonV v1 v2).differences ↔
      (⟨.remove, p, some w, none⟩ : DiffEntry) ∈ (Differ.compareJsonV v2 v1).differences) ∧
    (∀ p a b,
      (⟨.update, p, some a, some b⟩ : DiffEntry) ∈ (Differ.compareJsonV v1 v2).differences ↔
      (⟨.update, p, some b, some a⟩ : DiffEntry) ∈ (Differ.compareJsonV v2 v1).differences) := by
  have hds : ∀ a b : Value, isComposite a = true → isComposite b = true →
      (Differ.compareJsonV a b).differences = (microdiff a b).map Differ.convertDiff := by
    intro a b ha hb
    rw [Differ.compareJsonV]
    simp [ha, hb, Differ.microdiffApp, DiffResult.differences]
  have base : ((microdiff v2 v1 : List MDiff) : Multiset MDiff) =
      Multiset.map swapM ((microdiff v1 v2 : List MDiff) : Multiset MDiff) :=
    md_symm (v1.size + v2.size) v1 v2 le_rfl h1 h2
  have rev : ((microdiff v1 v2 : List MDiff) : Multiset MDiff) =
      Multiset.map swapM ((microdiff v2 v1 : List MDiff) : Multiset MDiff) :=
    md_symm (v2.size + v1.size) v2 v1 le_rfl h2 h1
  have e1 : (((Differ.compareJsonV v2 v1).differences : List DiffEntry) : Multiset DiffEntry) =
      Multiset.map swapEntry
        (((Differ.compareJsonV v1 v2).differences : List DiffEntry) : Multiset DiffEntry) := by
    rw [hds v2 v1 hc2 hc1, hds v1 v2 hc1 hc2,
      ← Multiset.map_coe, ← Multiset.map_coe, base, Multiset.map_map, Multiset.map_map]
    apply Multiset.map_congr rfl
    intro d _
    simp [Function.comp, convertDiff_swapM]
  have e2 : (((Differ.compareJsonV v1 v2).differences : List DiffEntry) : Multiset DiffEntry) =
      Multiset.map swapEntry
        (((Differ.compareJsonV v2 v1).differences : List DiffEntry) : Multiset DiffEntry) := by
    rw [hds v2 v1 hc2 hc1, hds v1 v2 hc1 hc2,
      ← Multiset.map_coe, ← Multiset.map_coe, rev, Multiset.map_map, Multiset.map_map]
    apply Multiset.map_congr rfl
    intro d _
    simp [Function.comp, convertDiff_swapM]
  refine ⟨e1, e2, ?_, ?_, ?_⟩
  · have := congrArg Multiset.card e1
    rwa [Multiset.coe_card, Multiset.card_map, Multiset.coe_card] at this
  · intro p w
    constructor
    · intro hmem
      have : swapEntry ⟨.add, p, none, some w⟩ ∈
          Multiset.map swapEntry
            (((Differ.compareJsonV v1 v2).differences : List DiffEntry) : Multiset DiffEntry) :=
        Multiset.mem_map_of_mem swapEntry (Multiset.mem_coe.mpr hmem)
      rw [← e1] at this
      exact Multiset.mem_coe.mp this
    · intro hmem
      have : swapEntry ⟨.remove, p, some w, none⟩ ∈
          Multiset.map swapEntry
            (((Differ.compareJsonV v2 v1).differences : List DiffEntry) : Multiset DiffEntry) :=
        Multiset.mem_map_of_mem swapEntry (Multiset.mem_coe.mpr hmem)
      rw [← e2] at this
      exact Multiset.mem_coe.mp this
  · intro p a b
    constructor
    · intro hmem
      have : swapEntry ⟨.update, p, some a, some b⟩ ∈
          Multiset.map swapEntry
            (((Differ.compareJsonV v1 v2).differences : List DiffEntry) : Multiset DiffEntry) :=
        Multiset.mem_map_of_mem swapEntry (Multiset.mem_coe.mpr hmem)
      rw [← e1] at this
      exact Multiset.mem_coe.mp this
    · intro hmem
      have : swapEntry ⟨.update, p, some b, some a⟩ ∈
          Multiset.map swapEntry
            (((Differ.compareJsonV v2 v1).differences : List DiffEntry) : Multiset DiffEntry) :=
        Multiset.mem_map_of_mem swapEntry (Multiset.mem_coe.mpr hmem)
      rw [← e2] at this
      exact Multiset.mem_coe.mp this

/-- C8 (witness): the objects `{"a": 1, "b": 2}` and `{"a": 3, "c": 4}`
are well-formed distinct composites, and the two diff directions have
equal length. -/
theorem diff_symm_witness :
    (WF (.obj (.cons "a" (.num 1) (.cons "b" (.num 2) .nil))) = true ∧
      WF (.obj (.cons "a" (.num 3) (.cons "c" (.num 4) .nil))) = true ∧
      isComposite (.obj (.cons "a" (.num 1) (.cons "b" (.num 2) .nil))) = true ∧
      (Value.obj (.cons "a" (.num 1) (.cons "b" (.num 2) .nil)) ≠
        .obj (.cons "a" (.num 3) (.cons "c" (.num 4) .nil)))) ∧
    (Differ.compareJsonV (.obj (.cons "a" (.num 3) (.cons "c" (.num 4) .nil)))
        (.obj (.cons "a" (.num 1) (.cons "b" (.num 2) .nil)))).differences.length =
      (Differ.compareJsonV (.obj (.cons "a" (.num 1) (.cons "b" (.num 2) .nil)))
        (.obj (.cons "a" (.num 3) (.cons "c" (.num 4) .nil)))).differences.length :=
  ⟨⟨by decide, by decide, by decide, by decide⟩,
   (diff_symm (.obj (.cons "a" (.num 1) (.cons "b" (.num 2) .nil)))
      (.obj (.cons "a" (.num 3) (.cons "c" (.num 4) .nil)))
      (by decide) (by decide) (by decide) (by decide) (by decide)).2.2.1⟩
